import Mathlib

set_option maxRecDepth 100000

/-!
Shallow embedding of `colliding_particles_threaded/src/main.rs` and proofs
about it.

Modelling conventions:
* `f32` values are modelled as rationals (`ℚ`); the program only multiplies,
  subtracts, adds and compares coordinates, and every claim under study is
  about the exact arithmetic structure of those operations.
* `usize` values are modelled as `ℕ`; the two `usize` subtractions the
  program performs (`particles_len - 1`, `particles_len - chunk_idx - 1`)
  are proved to never underflow at the configuration in `main`, so `ℕ`
  truncated subtraction agrees with Rust's checked subtraction there.
* The random source `rand::random::<f32>()` is modelled as an explicit
  stream `draws : ℕ → ℚ` of successive values; the program draws two fresh
  values per particle (first for `x`, then for `y`).
* Fallible operations (Rust slice indexing that would panic when out of
  bounds, `copy_from_slice` which panics on length mismatch) are modelled
  with `Option`, `none` standing for the panic.
-/

/-- `const THREAD_COUNT : usize = 10` — the number of mover workers. -/
def THREAD_COUNT : ℕ := 10

/-- `const COLLISION_THREAD_COUNT : usize = 1`. -/
def COLLISION_THREAD_COUNT : ℕ := 1

/-- `const PARTICLE_COUNT : usize = 100`. -/
def PARTICLE_COUNT : ℕ := 100

/-- `const ENCLOSURE_W : f32 = 10.0`. -/
def ENCLOSURE_W : ℚ := 10

/-- `const ENCLOSURE_H : f32 = 10.0`. -/
def ENCLOSURE_H : ℚ := 10

/-- `const PARTICLE_RADIUS_SQUARED : f32 = 0.01` (`0.01 == 0.1^2`). -/
def PARTICLE_RADIUS_SQUARED : ℚ := 1 / 100

/-- `struct Particle { x: f32, y: f32 }`. -/
structure Particle where
  x : ℚ
  y : ℚ
deriving DecidableEq

/-- `Particle::perform_collision_check`: squared Euclidean distance between
the two points, compared strictly against `PARTICLE_RADIUS_SQUARED`. -/
def Particle.perform_collision_check (self other : Particle) : Bool :=
  let dist_x := self.x - other.x
  let dist_y := self.y - other.y
  let squared_distance := dist_x * dist_x + dist_y * dist_y
  decide (squared_distance < PARTICLE_RADIUS_SQUARED)

/-- `struct ParticleSystem { particles: Vec<Particle> }`. -/
structure ParticleSystem where
  particles : List Particle
deriving DecidableEq

/-- `ParticleSystem::new`: push a `(0,0)` particle once per iteration of
`for _ in 0..PARTICLE_COUNT`. -/
def ParticleSystem.new : ParticleSystem :=
  { particles :=
      (List.range PARTICLE_COUNT).foldl
        (fun created_particles _ => created_particles ++ [{ x := 0, y := 0 }]) [] }

/-- The `(chunk_idx, chunk_len)` pair `main` computes for mover worker `i`:
`chunk_idx = i * chunk_size`, `chunk_len = chunk_size`, then
`if chunk_idx + chunk_len > particles_len - 1 { chunk_len = particles_len - chunk_idx - 1 }`. -/
def chunkAssign (particles_len : ℕ) (i : ℕ) : ℕ × ℕ :=
  let chunk_size := particles_len / THREAD_COUNT
  let chunk_idx := i * chunk_size
  let chunk_len := chunk_size
  if chunk_idx + chunk_len > particles_len - 1 then
    (chunk_idx, particles_len - chunk_idx - 1)
  else
    (chunk_idx, chunk_len)

/-- The list of `(start, len)` arguments `main` passes to `move_thread_main`,
one per iteration of `for i in 0..THREAD_COUNT`, with
`particles_len = particle_system.particles.len()`. -/
def mainChunks : List (ℕ × ℕ) :=
  (List.range THREAD_COUNT).map (chunkAssign ParticleSystem.new.particles.length)

/-- C1: with `particle_count = 100` and `10` mover workers, worker `i` gets
`start = i * 10` and `len = 10`, except that the clamp caps `start + len` at
`particle_count - 1 = 99`; the chunks are `[0,10), [10,20), ..., [80,90),
[90,99)`, and index `99` lies in none of them. -/
theorem mainChunks_spec :
    mainChunks =
      [(0, 10), (10, 10), (20, 10), (30, 10), (40, 10),
       (50, 10), (60, 10), (70, 10), (80, 10), (90, 9)] ∧
    (∀ c ∈ mainChunks, c.1 + c.2 ≤ PARTICLE_COUNT - 1) ∧
    (∀ c ∈ mainChunks, ¬ (c.1 ≤ PARTICLE_COUNT - 1 ∧ PARTICLE_COUNT - 1 < c.1 + c.2)) := by
  decide

/-- Witness for `mainChunks_spec`: the last chunk `(90, 9)` satisfies the
clamp bound and does not contain index `99`. -/
theorem mainChunks_spec_witness :
    ((90, 9) ∈ mainChunks ∧ 90 + 9 ≤ PARTICLE_COUNT - 1) ∧
    ¬ (90 ≤ PARTICLE_COUNT - 1 ∧ PARTICLE_COUNT - 1 < 90 + 9) :=
  ⟨⟨by decide, mainChunks_spec.2.1 (90, 9) (by decide)⟩,
    mainChunks_spec.2.2 (90, 9) (by decide)⟩

/-- C3: `perform_collision_check` returns `true` iff the squared Euclidean
distance is strictly below the threshold `1/100`; at squared distance exactly
`1/100` (particles `(0,0)` and `(1/10,0)`) it returns `false`. -/
theorem collision_check_iff_lt_threshold :
    (∀ a b : Particle,
      a.perform_collision_check b = true ↔
        (a.x - b.x) * (a.x - b.x) + (a.y - b.y) * (a.y - b.y) < 1 / 100) ∧
    Particle.perform_collision_check { x := 0, y := 0 } { x := 1 / 10, y := 0 } = false := by
  constructor
  · intro a b
    simp [Particle.perform_collision_check, PARTICLE_RADIUS_SQUARED]
  · simp [Particle.perform_collision_check, PARTICLE_RADIUS_SQUARED]
    norm_num

/-- C4: a particle always collides with itself: the squared distance is `0`,
strictly below the threshold, whatever the coordinates are. -/
theorem collision_check_self (a : Particle) :
    a.perform_collision_check a = true := by
  simp [Particle.perform_collision_check, PARTICLE_RADIUS_SQUARED]

/-- C9: the overlap check is symmetric in its two particles. -/
theorem collision_check_symm (a b : Particle) :
    a.perform_collision_check b = b.perform_collision_check a := by
  simp only [Particle.perform_collision_check]
  have key : (a.x - b.x) * (a.x - b.x) + (a.y - b.y) * (a.y - b.y)
      = (b.x - a.x) * (b.x - a.x) + (b.y - a.y) * (b.y - a.y) := by ring
  rw [key]

/-- C7: `ParticleSystem::new` yields exactly `PARTICLE_COUNT = 100`
particles, all at `(0,0)`; being a total function, it has no failure mode. -/
theorem particle_system_new_spec :
    ParticleSystem.new.particles = List.replicate PARTICLE_COUNT { x := 0, y := 0 } ∧
    ParticleSystem.new.particles.length = PARTICLE_COUNT ∧
    PARTICLE_COUNT = 100 := by
  decide

/-- One line of the console dump of `ParticleSystem::debug_print_particles`:
either a line of `(index, particle)` entries, each printed as
`"{i} : x {p.x} y {p.y}"`, or the trailing `----` separator line. -/
inductive DumpLine where
  | entries : List (ℕ × Particle) → DumpLine
  | separator : DumpLine
deriving DecidableEq

/-- The entry lines of `ParticleSystem::debug_print_particles`, before the
separator. The loop keeps a counter `i`; entry `i` ends the current line
(`println!`) exactly when `i % 5 == 0 && i != 0`, and otherwise is appended
to it (`print!`). The closing `println!("\n----")` terminates the pending
line, so the buffer left by the loop becomes the final entry line. State of
the fold: (finished lines, pending line, i). -/
def dumpEntryLines (ps : List Particle) : List (List (ℕ × Particle)) :=
  let st := ps.foldl
    (fun st p =>
      if st.2.2 % 5 = 0 ∧ st.2.2 ≠ 0 then
        (st.1 ++ [st.2.1 ++ [(st.2.2, p)]], [], st.2.2 + 1)
      else
        (st.1, st.2.1 ++ [(st.2.2, p)], st.2.2 + 1))
    (([], [], 0) : List (List (ℕ × Particle)) × List (ℕ × Particle) × ℕ)
  st.1 ++ [st.2.1]

/-- `ParticleSystem::debug_print_particles` as the list of console lines it
produces: the entry lines followed by the `----` separator line. -/
def debug_print_particles (ps : List Particle) : List DumpLine :=
  (dumpEntryLines ps).map DumpLine.entries ++ [DumpLine.separator]

/-- C2 counterexample: on the program's own 100-particle system the dump is
not grouped five per line — the first line holds entries 0 through 5, six of
them, because the line break fires at each index that is a nonzero multiple
of five, after that entry is printed. -/
theorem debug_dump_not_five_per_line :
    ¬ (∀ l ∈ dumpEntryLines ParticleSystem.new.particles, l.length = 5) := by
  decide

/-- C2 (amended): the dump lists every particle index (with its coordinates)
in order, but a line break is emitted at each entry whose index is a nonzero
multiple of five; for the 100-particle system the first line holds six
entries (indices 0–5), the next eighteen lines hold five each, the last line
holds four (indices 96–99), and the output ends with the separator line. -/
theorem debug_dump_grouping :
    (dumpEntryLines ParticleSystem.new.particles).map List.length =
      6 :: (List.replicate 18 5 ++ [4]) ∧
    (dumpEntryLines ParticleSystem.new.particles).flatten =
      ParticleSystem.new.particles.enum ∧
    (debug_print_particles ParticleSystem.new.particles).getLast? =
      some DumpLine.separator := by
  decide

/-- `random_move_particles`: for each particle of the slice, in order, set
`p.x = random::<f32>() * ENCLOSURE_W` then `p.y = random::<f32>() * ENCLOSURE_H`,
each `random` call consuming the next value of the stream `draws` (so the
particle at position `k` uses `draws (2*k)` for `x` and `draws (2*k+1)` for
`y`). -/
def random_move_particles (draws : ℕ → ℚ) : List Particle → List Particle
  | [] => []
  | _ :: particle_list =>
      { x := draws 0 * ENCLOSURE_W, y := draws 1 * ENCLOSURE_H } ::
        random_move_particles (fun n => draws (n + 2)) particle_list

lemma random_move_particles_length (draws : ℕ → ℚ) (ps : List Particle) :
    (random_move_particles draws ps).length = ps.length := by
  induction ps generalizing draws with
  | nil => rfl
  | cons p ps ih => simp [random_move_particles, ih]

lemma random_move_particles_getElem? (draws : ℕ → ℚ) (ps : List Particle) (k : ℕ) :
    (random_move_particles draws ps)[k]? =
      if k < ps.length then
        some { x := draws (2 * k) * ENCLOSURE_W, y := draws (2 * k + 1) * ENCLOSURE_H }
      else none := by
  induction ps generalizing draws k with
  | nil => simp [random_move_particles]
  | cons p ps ih =>
    cases k with
    | zero => simp [random_move_particles]
    | succ k =>
      have h2 : 2 * (k + 1) = 2 * k + 2 := by ring
      have h3 : 2 * (k + 1) + 1 = 2 * k + 1 + 2 := by ring
      simp only [random_move_particles, List.getElem?_cons_succ, ih, List.length_cons,
        Nat.add_lt_add_iff_right, h2, h3]

/-- C5: after `random_move_particles`, the particle at position `k` of the
slice has `x = draws (2*k) * ENCLOSURE_W` and `y = draws (2*k+1) * ENCLOSURE_H`
— two distinct fresh draws — and when those draws lie in `[0,1)` the moved
particle satisfies `0 ≤ x < ENCLOSURE_W` and `0 ≤ y < ENCLOSURE_H`; the
slice length is unchanged. -/
theorem random_move_spec (draws : ℕ → ℚ) (ps : List Particle) (k : ℕ)
    (hk : k < ps.length)
    (h0 : 0 ≤ draws (2 * k)) (h1 : draws (2 * k) < 1)
    (h2 : 0 ≤ draws (2 * k + 1)) (h3 : draws (2 * k + 1) < 1) :
    (random_move_particles draws ps).length = ps.length ∧
    (random_move_particles draws ps)[k]? =
      some { x := draws (2 * k) * ENCLOSURE_W, y := draws (2 * k + 1) * ENCLOSURE_H } ∧
    ∀ p : Particle, (random_move_particles draws ps)[k]? = some p →
      0 ≤ p.x ∧ p.x < ENCLOSURE_W ∧ 0 ≤ p.y ∧ p.y < ENCLOSURE_H := by
  have hget := random_move_particles_getElem? draws ps k
  rw [if_pos hk] at hget
  refine ⟨random_move_particles_length draws ps, hget, ?_⟩
  intro p hp
  rw [hget] at hp
  obtain rfl := Option.some_injective _ hp.symm
  have hW : (0 : ℚ) < ENCLOSURE_W := by norm_num [ENCLOSURE_W]
  have hH : (0 : ℚ) < ENCLOSURE_H := by norm_num [ENCLOSURE_H]
  refine ⟨mul_nonneg h0 hW.le, ?_, mul_nonneg h2 hH.le, ?_⟩
  · calc draws (2 * k) * ENCLOSURE_W < 1 * ENCLOSURE_W := by
          exact mul_lt_mul_of_pos_right h1 hW
      _ = ENCLOSURE_W := one_mul _
  · calc draws (2 * k + 1) * ENCLOSURE_H < 1 * ENCLOSURE_H := by
          exact mul_lt_mul_of_pos_right h3 hH
      _ = ENCLOSURE_H := one_mul _

/-- Witness for `random_move_spec`: the constant stream `1/2` applied to the
one-particle slice `[(3,4)]`. -/
theorem random_move_spec_witness :
    (0 < ([{ x := 3, y := 4 }] : List Particle).length ∧
      (0 : ℚ) ≤ 1 / 2 ∧ (1 : ℚ) / 2 < 1) ∧
    ((random_move_particles (fun _ => (1 : ℚ) / 2) [{ x := 3, y := 4 }]).length =
        ([{ x := 3, y := 4 }] : List Particle).length ∧
      (random_move_particles (fun _ => (1 : ℚ) / 2) [{ x := 3, y := 4 }])[0]? =
        some { x := (1 : ℚ) / 2 * ENCLOSURE_W, y := (1 : ℚ) / 2 * ENCLOSURE_H } ∧
      ∀ p : Particle,
        (random_move_particles (fun _ => (1 : ℚ) / 2) [{ x := 3, y := 4 }])[0]? = some p →
          0 ≤ p.x ∧ p.x < ENCLOSURE_W ∧ 0 ≤ p.y ∧ p.y < ENCLOSURE_H) :=
  ⟨⟨by simp, by norm_num, by norm_num⟩,
    random_move_spec (fun _ => (1 : ℚ) / 2) [{ x := 3, y := 4 }] 0 (by simp)
      (by norm_num) (by norm_num) (by norm_num) (by norm_num)⟩

/-- The copy-out in `move_thread_main`:
`system.particles[start..start + len].to_vec()`. Rust panics when the range
is out of bounds; that is the `none` case. -/
def read_range (ps : List Particle) (start len : ℕ) : Option (List Particle) :=
  if start + len ≤ ps.length then some ((ps.drop start).take len) else none

/-- The write-back in `move_thread_main`:
`system.particles[start..start + len].copy_from_slice(&local_chunk)`.
Rust panics when the range is out of bounds or when the chunk length differs
from `len`; those are the `none` case. -/
def write_range (ps : List Particle) (start len : ℕ) (chunk : List Particle) :
    Option (List Particle) :=
  if start + len ≤ ps.length ∧ chunk.length = len then
    some (ps.take start ++ chunk ++ ps.drop (start + len))
  else none

/-- C8: an in-bounds write-back replaces exactly the particles at indices
`[start, start + len)` with the chunk; the length of the sequence and every
particle outside that range are unchanged. -/
theorem write_range_frame (ps chunk : List Particle) (start len : ℕ)
    (hrange : start + len ≤ ps.length) (hchunk : chunk.length = len) :
    ∃ qs, write_range ps start len chunk = some qs ∧
      qs.length = ps.length ∧
      (∀ k, k < start → qs[k]? = ps[k]?) ∧
      (∀ k, start + len ≤ k → qs[k]? = ps[k]?) ∧
      (∀ k, k < len → qs[start + k]? = chunk[k]?) := by
  have hs : start ≤ ps.length := by omega
  have htake : (ps.take start).length = start := by
    simp [List.length_take]
    omega
  have hfront : (ps.take start ++ chunk).length = start + len := by
    simp [htake, hchunk]
  refine ⟨ps.take start ++ chunk ++ ps.drop (start + len),
    by rw [write_range, if_pos ⟨hrange, hchunk⟩], ?_, ?_, ?_, ?_⟩
  · simp [htake, hchunk]
    omega
  · intro k hk
    rw [List.getElem?_append_left (by rw [hfront]; omega),
      List.getElem?_append_left (by rw [htake]; omega),
      List.getElem?_take_of_lt hk]
  · intro k hk
    rw [List.getElem?_append_right (by rw [hfront]; omega), hfront,
      List.getElem?_drop]
    congr 1
    omega
  · intro k hk
    rw [List.getElem?_append_left (by rw [hfront]; omega),
      List.getElem?_append_right (by rw [htake]; omega), htake]
    congr 1
    omega

/-- Witness for `write_range_frame`: writing the one-particle chunk `[(5,6)]`
at `start = 1` into a three-particle list. -/
theorem write_range_frame_witness :
    (1 + 1 ≤ ([{ x := 0, y := 0 }, { x := 1, y := 1 }, { x := 2, y := 2 }] :
        List Particle).length ∧
      ([{ x := 5, y := 6 }] : List Particle).length = 1) ∧
    (∃ qs,
      write_range [{ x := 0, y := 0 }, { x := 1, y := 1 }, { x := 2, y := 2 }] 1 1
          [{ x := 5, y := 6 }] = some qs ∧
      qs.length = ([{ x := 0, y := 0 }, { x := 1, y := 1 }, { x := 2, y := 2 }] :
        List Particle).length ∧
      (∀ k, k < 1 →
        qs[k]? = ([{ x := 0, y := 0 }, { x := 1, y := 1 }, { x := 2, y := 2 }] :
          List Particle)[k]?) ∧
      (∀ k, 1 + 1 ≤ k →
        qs[k]? = ([{ x := 0, y := 0 }, { x := 1, y := 1 }, { x := 2, y := 2 }] :
          List Particle)[k]?) ∧
      (∀ k, k < 1 → qs[1 + k]? = ([{ x := 5, y := 6 }] : List Particle)[k]?)) :=
  ⟨⟨by simp, by simp⟩,
    write_range_frame [{ x := 0, y := 0 }, { x := 1, y := 1 }, { x := 2, y := 2 }]
      [{ x := 5, y := 6 }] 1 1 (by simp) (by simp)⟩

lemma mainChunks_in_bounds : ∀ c ∈ mainChunks, c.1 + c.2 ≤ PARTICLE_COUNT := by
  decide

/-- C10: for every `(start, len)` pair `main` hands to a mover worker,
`start + len ≤ PARTICLE_COUNT`, so on a 100-particle system the copy-out
slice is in bounds, `random_move_particles` keeps the local chunk at length
`len`, and the `copy_from_slice` write-back is in bounds with matching
lengths — none of the modelled panic (`none`) branches is reachable. -/
theorem main_ranges_safe (c : ℕ × ℕ) (hc : c ∈ mainChunks)
    (ps chunk : List Particle) (draws : ℕ → ℚ)
    (hps : ps.length = PARTICLE_COUNT) (hchunk : chunk.length = c.2) :
    c.1 + c.2 ≤ PARTICLE_COUNT ∧
    (read_range ps c.1 c.2).isSome = true ∧
    (random_move_particles draws chunk).length = chunk.length ∧
    (write_range ps c.1 c.2 (random_move_particles draws chunk)).isSome = true := by
  have hb : c.1 + c.2 ≤ PARTICLE_COUNT := mainChunks_in_bounds c hc
  have hlen : (random_move_particles draws chunk).length = chunk.length :=
    random_move_particles_length draws chunk
  refine ⟨hb, ?_, hlen, ?_⟩
  · rw [read_range, if_pos (by omega)]
    rfl
  · rw [write_range, if_pos ⟨by omega, by omega⟩]
    rfl

/-- Witness for `main_ranges_safe`: the clamped last chunk `(90, 9)` on the
freshly constructed particle system, with the constant-zero draw stream. -/
theorem main_ranges_safe_witness :
    ((90, 9) ∈ mainChunks ∧
      ParticleSystem.new.particles.length = PARTICLE_COUNT ∧
      (List.replicate 9 ({ x := 0, y := 0 } : Particle)).length = (90, 9).2) ∧
    (90 + 9 ≤ PARTICLE_COUNT ∧
      (read_range ParticleSystem.new.particles 90 9).isSome = true ∧
      (random_move_particles (fun _ => 0)
          (List.replicate 9 ({ x := 0, y := 0 } : Particle))).length =
        (List.replicate 9 ({ x := 0, y := 0 } : Particle)).length ∧
      (write_range ParticleSystem.new.particles 90 9
          (random_move_particles (fun _ => 0)
            (List.replicate 9 ({ x := 0, y := 0 } : Particle)))).isSome = true) :=
  ⟨⟨by decide, by decide, by decide⟩,
    main_ranges_safe (90, 9) (by decide) ParticleSystem.new.particles
      (List.replicate 9 ({ x := 0, y := 0 } : Particle)) (fun _ => 0)
      (by decide) (by decide)⟩

/-- The pairwise scan of one iteration of `collision_thread_main`:
`for i in 0..particles.len() { for j in i + 1..particles.len() { if
particles[i].perform_collision_check(&particles[j]) { collision_count += 1 } } }`.
Indexing is modelled with `getD`; both loop variables stay below
`particles.len()`, so the default is never read. -/
def collision_scan (particles : List Particle) (collision_count : ℕ) : ℕ :=
  (List.range particles.length).foldl
    (fun c i =>
      (List.range' (i + 1) (particles.length - (i + 1))).foldl
        (fun c2 j =>
          if (particles.getD i { x := 0, y := 0 }).perform_collision_check
              (particles.getD j { x := 0, y := 0 }) = true then
            c2 + 1
          else c2)
        c)
    collision_count

/-- The number of unordered index pairs `(i, j)` with `i < j` in the snapshot
whose overlap check returns `true`. -/
def num_overlap_pairs (particles : List Particle) : ℕ :=
  ((Finset.range particles.length ×ˢ Finset.range particles.length).filter
    (fun q => q.1 < q.2 ∧
      (particles.getD q.1 { x := 0, y := 0 }).perform_collision_check
        (particles.getD q.2 { x := 0, y := 0 }) = true)).card

/-- The loop of `collision_thread_main` across its iterations: each iteration
reads one snapshot of the shared system and scans it, threading the running
`collision_count`. -/
def collision_worker (snapshots : List (List Particle)) (collision_count : ℕ) : ℕ :=
  snapshots.foldl (fun c particles => collision_scan particles c) collision_count

lemma foldl_count_if (P : ℕ → Bool) (l : List ℕ) (c : ℕ) :
    l.foldl (fun c2 j => if P j = true then c2 + 1 else c2) c = c + l.countP P := by
  induction l generalizing c with
  | nil => simp
  | cons a l ih =>
    rw [List.foldl_cons, ih, List.countP_cons]
    cases hP : P a <;> simp [hP]
    omega

lemma countP_range'_eq (Pb : ℕ → Bool) (i : ℕ) :
    ∀ n, (List.range' (i + 1) (n - (i + 1))).countP Pb =
      ∑ j in Finset.range n, if i < j ∧ Pb j = true then 1 else 0 := by
  intro n
  induction n with
  | zero => simp
  | succ n ih =>
    rw [Finset.sum_range_succ]
    by_cases h : i < n
    · have hsub : n + 1 - (i + 1) = (n - (i + 1)) + 1 := by omega
      have haddr : (i + 1) + 1 * (n - (i + 1)) = n := by omega
      rw [hsub, List.range'_concat, haddr, List.countP_append, ih]
      cases hP : Pb n <;> simp [List.countP_cons, hP, h]
    · have hsub : n + 1 - (i + 1) = 0 := by omega
      have hsub2 : n - (i + 1) = 0 := by omega
      rw [hsub2] at ih
      rw [hsub]
      simp only [List.range'_zero, List.countP_nil] at ih ⊢
      rw [← ih]
      simp [h]

lemma sum_list_range (g : ℕ → ℕ) : ∀ n, ((List.range n).map g).sum = ∑ i in Finset.range n, g i := by
  intro n
  induction n with
  | zero => simp
  | succ n ih =>
    rw [List.range_succ, Finset.sum_range_succ]
    simp [ih]

lemma foldl_add_map (g : ℕ → ℕ) (l : List ℕ) (c : ℕ) :
    l.foldl (fun c i => c + g i) c = c + (l.map g).sum := by
  induction l generalizing c with
  | nil => simp
  | cons a l ih =>
    rw [List.foldl_cons, ih]
    simp
    omega

lemma collision_scan_eq (particles : List Particle) (c : ℕ) :
    collision_scan particles c = c + num_overlap_pairs particles := by
  have step1 : collision_scan particles c =
      (List.range particles.length).foldl
        (fun c i =>
          c + (List.range' (i + 1) (particles.length - (i + 1))).countP
            (fun j => (particles.getD i { x := 0, y := 0 }).perform_collision_check
              (particles.getD j { x := 0, y := 0 }))) c := by
    unfold collision_scan
    apply List.foldl_ext
    intro a b _
    exact foldl_count_if _ _ a
  have step2 : num_overlap_pairs particles =
      ∑ i in Finset.range particles.length, ∑ j in Finset.range particles.length,
        if i < j ∧ (particles.getD i { x := 0, y := 0 }).perform_collision_check
            (particles.getD j { x := 0, y := 0 }) = true then 1 else 0 := by
    rw [num_overlap_pairs, Finset.card_filter, Finset.sum_product]
  rw [step1, foldl_add_map, sum_list_range, step2]
  congr 1
  exact Finset.sum_congr rfl fun i _ => countP_range'_eq _ i particles.length

lemma collision_worker_mono (snapshots : List (List Particle)) :
    ∀ c, c ≤ collision_worker snapshots c := by
  induction snapshots with
  | nil => intro c; exact le_refl c
  | cons s snapshots ih =>
    intro c
    calc c ≤ collision_scan s c := by rw [collision_scan_eq]; omega
      _ ≤ collision_worker snapshots (collision_scan s c) := ih _
      _ = collision_worker (s :: snapshots) c := rfl

/-- C6: one scan iteration adds to the counter exactly the number of
unordered index pairs `(i, j)`, `i < j`, of the snapshot whose overlap check
returns `true`; consequently the counter never decreases across iterations,
and a pair overlapping in two successive snapshots is counted twice. -/
theorem collision_counter_spec :
    (∀ (snapshot : List Particle) (c : ℕ),
      collision_scan snapshot c = c + num_overlap_pairs snapshot) ∧
    (∀ (snapshots : List (List Particle)) (c : ℕ), c ≤ collision_worker snapshots c) ∧
    (∀ (snapshot : List Particle) (c : ℕ),
      collision_worker [snapshot, snapshot] c = c + 2 * num_overlap_pairs snapshot) := by
  refine ⟨fun s c => collision_scan_eq s c, fun l c => collision_worker_mono l c, ?_⟩
  intro s c
  show collision_scan s (collision_scan s c) = _
  rw [collision_scan_eq, collision_scan_eq]
  ring
